import Mathlib

/-!
Verification development for the Minesweeper board/game-state engine of
`minesweeper.py` (class `MinesweeperWindow` plus the validation in
`StartWindow.on_start_game`).

The Python board is `self.board`, a list of `N` lists of `N` dicts with keys
`is_mine`, `adjacent_mines`, `is_revealed`, `is_flagged`.  We embed a cell as a
structure and the board as a total function `Nat → Nat → Cell`; the game only
ever reads and writes indices `0 ≤ r, c < N`, except through Python's list
indexing semantics which are embedded separately (`pyIndex`, `left_click_py`,
`right_click_py`): an index `i` with `-len ≤ i < 0` silently wraps to
`len + i`, and any other out-of-range index raises `IndexError`, embedded as
`none`.

UI concerns (`_update_button`, `_get_color`, dialogs, signals) read but never
write the game state and are not embedded.
-/

namespace Minesweeper

/-- One grid position of `self.board`: the dict
`{"is_mine": ..., "adjacent_mines": ..., "is_revealed": ..., "is_flagged": ...}`. -/
structure Cell where
  is_mine : Bool
  adjacent_mines : Int
  is_revealed : Bool
  is_flagged : Bool
deriving DecidableEq, Repr

/-- The grid, indexed as `board r c` for Python's `self.board[r][c]`. -/
def Board : Type := Nat → Nat → Cell

/-- Python's outcome of a finished game, as displayed by `info_label` /
`_show_endgame_dialog` ("You hit a mine! Game Over!" vs
"Congratulations, you won!"); `inProgress` while neither message is shown. -/
inductive Outcome where
  | inProgress
  | won
  | lost
deriving DecidableEq, Repr

/-- The mutable game state of `MinesweeperWindow`: grid size `N`, the board,
and the `self.game_over` flag, together with the displayed outcome. -/
structure Game where
  N : Nat
  board : Board
  game_over : Bool
  outcome : Outcome

/-- The fresh cell dict created by the board comprehension in `__init__`. -/
def mkCell : Cell :=
  { is_mine := false, adjacent_mines := 0, is_revealed := false, is_flagged := false }

/-- The board right after the comprehension in `__init__`, before
`_place_mines` and `_calculate_adjacency`. -/
def emptyBoard : Board := fun _ _ => mkCell

/-- `_place_mines`: set `is_mine = True` at each sampled position.
`random.sample(all_positions, M)` returns a duplicate-free list of `M`
in-range positions; the draw itself is the game's only randomness and is taken
here as the parameter `mines`. -/
def place_mines (b : Board) (mines : List (Nat × Nat)) : Board :=
  fun r c => if (r, c) ∈ mines then { b r c with is_mine := true } else b r c

/-- The row indices visited by `range(max(0, r - 1), min(self.N, r + 2))`.
The index `i` is an `Int` because `left_click` can forward a negative
coordinate unchanged into `_flood_fill`. -/
def adjRange (N : Nat) (i : Int) : List Nat :=
  (List.range N).filter fun j => i - 1 ≤ (j : Int) ∧ (j : Int) < i + 2

/-- The positions visited by the nested `for nr ... for nc ...` loops of
`_calculate_adjacency` and `_flood_fill` (the ≤ 3×3 block clipped at the grid
edges, cell `(r, c)` itself included). -/
def neighborsOf (N : Nat) (r c : Int) : List (Nat × Nat) :=
  (adjRange N r).flatMap fun nr => (adjRange N c).map fun nc => (nr, nc)

/-- The mine count computed by the inner loops of `_calculate_adjacency`. -/
def countAdjacent (N : Nat) (b : Board) (r c : Nat) : Nat :=
  (neighborsOf N r c).countP fun p => (b p.1 p.2).is_mine

/-- `_calculate_adjacency`: `-1` sentinel on mines, neighbor mine count
otherwise.  The Python pass mutates only `adjacent_mines` while reading only
`is_mine`, so the in-place loop equals this pointwise map. -/
def calculate_adjacency (N : Nat) (b : Board) : Board :=
  fun r c =>
    if (b r c).is_mine then { b r c with adjacent_mines := -1 }
    else { b r c with adjacent_mines := (countAdjacent N b r c : Int) }

/-- The board built by `MinesweeperWindow.__init__` for a given mine sample. -/
def generateBoard (N : Nat) (mines : List (Nat × Nat)) : Board :=
  calculate_adjacency N (place_mines emptyBoard mines)

/-- The game state right after `MinesweeperWindow.__init__`. -/
def newGame (N : Nat) (mines : List (Nat × Nat)) : Game :=
  { N := N, board := generateBoard N mines, game_over := false, outcome := .inProgress }

/-- `cell["is_revealed"] = True` on the cell at `(r, c)`. -/
def revealCell (b : Board) (r c : Nat) : Board :=
  fun x y => if x = r ∧ y = c then { b x y with is_revealed := true } else b x y

/-- One step of the inner neighbor loop of `_flood_fill`: state is the board
plus the cells appended to the stack so far (most recent first, matching
Python's `stack.append` growing the list end, which `stack.pop` serves
first). -/
def floodStep (st : Board × List (Nat × Nat)) (p : Nat × Nat) : Board × List (Nat × Nat) :=
  if (st.1 p.1 p.2).is_revealed = false ∧ (st.1 p.1 p.2).is_flagged = false ∧
      (st.1 p.1 p.2).is_mine = false then
    (revealCell st.1 p.1 p.2,
      if (st.1 p.1 p.2).adjacent_mines = 0 then p :: st.2 else st.2)
  else st

/-- The body of one `while stack` iteration of `_flood_fill` after popping
`(r, c)`: visit the clipped 3×3 block, revealing and collecting pushes. -/
def processCell (N : Nat) (b : Board) (r c : Int) : Board × List (Nat × Nat) :=
  (neighborsOf N r c).foldl floodStep (b, [])

/-- The `while stack` loop of `_flood_fill`, with the stack top at the list
head.  The loop provably terminates (every push accompanies a cell becoming
revealed); the embedding makes that explicit with a fuel parameter, `none`
meaning the fuel ran out before the stack emptied. -/
def floodLoop (N : Nat) : Board → List (Nat × Nat) → Nat → Option Board
  | b, [], _ => some b
  | _, _ :: _, 0 => none
  | b, p :: stk, fuel + 1 =>
      let bp := processCell N b p.1 p.2
      floodLoop N bp.1 (bp.2 ++ stk) fuel

/-- Fuel that always suffices for `floodLoop` (proved below): one unit per
unrevealed cell plus one for the initial stack entry. -/
def floodFuel (N : Nat) : Nat := N * N + 1

/-- `_flood_fill(row, col)` with an in-range start (the stack starts as
`[(row, col)]`).  The `getD` default is never reached at this fuel. -/
def flood_fill (N : Nat) (b : Board) (row col : Nat) : Board :=
  (floodLoop N b [(row, col)] (floodFuel N)).getD b

/-- `_check_win`: `True` iff no non-mine cell is unrevealed. -/
def check_win (N : Nat) (b : Board) : Bool :=
  decide (∀ r < N, ∀ c < N, (b r c).is_mine = false → (b r c).is_revealed = true)

/-- `_show_all_mines`: mark every in-range mine cell revealed (the flag, if
set, is left in place). -/
def show_all_mines (N : Nat) (b : Board) : Board :=
  fun r c =>
    if r < N ∧ c < N ∧ (b r c).is_mine = true then { b r c with is_revealed := true }
    else b r c

/-- `left_click(row, col)` at an in-range coordinate (the UI only connects
buttons at `0 ≤ row, col < N`; raw Python indices are embedded separately by
`left_click_py`). -/
def left_click (g : Game) (row col : Nat) : Game :=
  if g.game_over then g
  else if (g.board row col).is_flagged || (g.board row col).is_revealed then g
  else if (g.board row col).is_mine then
    { g with board := show_all_mines g.N (revealCell g.board row col),
             game_over := true, outcome := .lost }
  else if check_win g.N (if (g.board row col).adjacent_mines = 0
      then flood_fill g.N (revealCell g.board row col) row col
      else revealCell g.board row col) then
    { g with
      board := (if (g.board row col).adjacent_mines = 0
          then flood_fill g.N (revealCell g.board row col) row col
          else revealCell g.board row col),
      game_over := true,
      outcome := .won }
  else
    { g with
      board := (if (g.board row col).adjacent_mines = 0
          then flood_fill g.N (revealCell g.board row col) row col
          else revealCell g.board row col) }

/-- `right_click(row, col)` at an in-range coordinate. -/
def right_click (g : Game) (row col : Nat) : Game :=
  if g.game_over then g
  else if (g.board row col).is_revealed then g
  else
    { g with
      board := fun x y =>
        if x = row ∧ y = col then
          { g.board row col with is_flagged := !(g.board row col).is_flagged }
        else g.board x y }

/-- Python list indexing on a list of length `len`: `0 ≤ i < len` is used as
is, `-len ≤ i < 0` silently wraps to `len + i`, anything else raises
`IndexError` (`none`). -/
def pyIndex (len : Nat) (i : Int) : Option Nat :=
  if 0 ≤ i ∧ i < (len : Int) then some i.toNat
  else if -(len : Int) ≤ i ∧ i < 0 then some (i + len).toNat
  else none

/-- `_flood_fill(row, col)` exactly as called by `left_click` with the raw
(possibly negative) Python coordinates: the first `while` iteration pops the
start, computing its neighbor ranges from the raw values; every coordinate
pushed after that is a canonical index, so the rest of the loop is
`floodLoop`. -/
def flood_fill_py (N : Nat) (b : Board) (row col : Int) : Board :=
  let bp := processCell N b row col
  (floodLoop N bp.1 bp.2 (floodFuel N)).getD bp.1

/-- `left_click(row, col)` for raw Python `int` coordinates: the body indexes
`self.board[row][col]` before mutating anything, so an `IndexError` (`none`)
leaves the state untouched; a wrapped negative index reads and mutates the
cell it designates, while `_flood_fill` still receives the raw coordinates. -/
def left_click_py (g : Game) (row col : Int) : Option Game :=
  if g.game_over then some g
  else
    match pyIndex g.N row, pyIndex g.N col with
    | some r, some c =>
      if (g.board r c).is_flagged || (g.board r c).is_revealed then some g
      else if (g.board r c).is_mine then
        some { g with board := show_all_mines g.N (revealCell g.board r c),
                      game_over := true, outcome := .lost }
      else if check_win g.N (if (g.board r c).adjacent_mines = 0
          then flood_fill_py g.N (revealCell g.board r c) row col
          else revealCell g.board r c) then
        some { g with
               board := (if (g.board r c).adjacent_mines = 0
                   then flood_fill_py g.N (revealCell g.board r c) row col
                   else revealCell g.board r c),
               game_over := true,
               outcome := .won }
      else
        some { g with
               board := (if (g.board r c).adjacent_mines = 0
                   then flood_fill_py g.N (revealCell g.board r c) row col
                   else revealCell g.board r c) }
    | _, _ => none

/-- `right_click(row, col)` for raw Python `int` coordinates. -/
def right_click_py (g : Game) (row col : Int) : Option Game :=
  if g.game_over then some g
  else
    match pyIndex g.N row, pyIndex g.N col with
    | some r, some c => some (right_click g r c)
    | _, _ => none

/-- The four ways `StartWindow.on_start_game` can end: the three error-label
messages, or constructing `MinesweeperWindow(N, M)`. -/
inductive StartResult where
  | parseError
  | badN
  | badM
  | launch (N M : Int)
deriving DecidableEq, Repr

/-- `StartWindow.on_start_game`: the two `int(...)` parses are taken as
`Option Int` inputs (`none` when `int` raises `ValueError`); on success the
validated `(N, M)` reach `MinesweeperWindow(N, M)`. -/
def on_start_game (nText mText : Option Int) : StartResult :=
  match nText, mText with
  | some n, some m =>
      if n ≤ 0 then .badN
      else if m < 0 ∨ m ≥ n * n then .badM
      else .launch n m
  | _, _ => .parseError

/-- The three fields `_flood_fill` and `left_click`'s initial reveal never
write: a board transformation touching only `is_revealed` is *static*. -/
def sameStatic (b b' : Board) : Prop :=
  ∀ x y, (b' x y).is_mine = (b x y).is_mine ∧ (b' x y).is_flagged = (b x y).is_flagged ∧
    (b' x y).adjacent_mines = (b x y).adjacent_mines

/-- All grid positions `(r, c)` with `0 ≤ r, c < N`. -/
def gridFinset (N : Nat) : Finset (Nat × Nat) := Finset.range N ×ˢ Finset.range N

/-- Number of in-range cells with `is_revealed = False`. -/
def unrevealedCount (N : Nat) (b : Board) : Nat :=
  ((gridFinset N).filter fun p => (b p.1 p.2).is_revealed = false).card

/-- Number of in-range cells with `is_mine = True`. -/
def mineCount (N : Nat) (b : Board) : Nat :=
  ((gridFinset N).filter fun p => (b p.1 p.2).is_mine = true).card

/-- The cells `_flood_fill` reaches from `(r0, c0)`: the start, plus —
transitively from any reached zero-adjacency cell — every neighbor that is
unrevealed, unflagged and not a mine.  All conditions are read off the board
`b` as it is when `_flood_fill` is entered (at that point the clicked start
cell is already revealed). -/
inductive FloodReach (N : Nat) (b : Board) (r0 c0 : Nat) : Nat → Nat → Prop where
  | start : FloodReach N b r0 c0 r0 c0
  | step {r c x y : Nat} : FloodReach N b r0 c0 r c → (b r c).adjacent_mines = 0 →
      (x, y) ∈ neighborsOf N r c → (b x y).is_revealed = false →
      (b x y).is_flagged = false → (b x y).is_mine = false →
      FloodReach N b r0 c0 x y

/-- Invariant of the `while stack` loop, relative to the entry board `b0` and
the start cell: the loop only reveals (statics untouched, reveals monotone),
only reveals reachable cells, keeps only reachable revealed zero cells on the
stack, and any reachable revealed zero cell is either still on the stack or
has had all its unflagged non-mine neighbors revealed. -/
def floodInv (N : Nat) (b0 : Board) (r0 c0 : Nat) (b : Board)
    (stack : List (Nat × Nat)) : Prop :=
  sameStatic b0 b ∧
  (∀ x y, (b0 x y).is_revealed = true → (b x y).is_revealed = true) ∧
  (∀ x y, (b x y).is_revealed = true →
    (b0 x y).is_revealed = true ∨ FloodReach N b0 r0 c0 x y) ∧
  (∀ p ∈ stack, FloodReach N b0 r0 c0 p.1 p.2 ∧ (b p.1 p.2).is_revealed = true ∧
    (b0 p.1 p.2).adjacent_mines = 0) ∧
  (∀ x y, FloodReach N b0 r0 c0 x y → (b x y).is_revealed = true →
    (b0 x y).adjacent_mines = 0 →
    ((x, y) ∈ stack ∨
      ∀ q ∈ neighborsOf N x y, (b0 q.1 q.2).is_flagged = false →
        (b0 q.1 q.2).is_mine = false → (b q.1 q.2).is_revealed = true))

/-- The spec's neighbor set (§3, §8): the up-to-8 cells sharing an edge or a
corner with `(r, c)`, out-of-bound neighbors excluded.  This is the spec-side
definition that `_calculate_adjacency`'s loop bounds are checked against. -/
def specMooreNeighbors (N r c : Nat) : Finset (Nat × Nat) :=
  (Finset.range N ×ˢ Finset.range N).filter fun p =>
    p ≠ (r, c) ∧ p.1 ≤ r + 1 ∧ r ≤ p.1 + 1 ∧ p.2 ≤ c + 1 ∧ c ≤ p.2 + 1

/-- One user action forwarded to the engine by the UI layer. -/
inductive Move where
  | reveal (row col : Nat)
  | flag (row col : Nat)

def applyMove (g : Game) : Move → Game
  | .reveal row col => left_click g row col
  | .flag row col => right_click g row col

/-- A whole sequence of clicks. -/
def applyMoves (g : Game) (ms : List Move) : Game := ms.foldl applyMove g

/-- Game states reachable through the engine: a fresh `MinesweeperWindow`
(for any mine sample), followed by any sequence of clicks on grid buttons
(the UI only wires buttons at coordinates `0 ≤ row, col < N`). -/
inductive Reachable : Game → Prop where
  | init (N : Nat) (mines : List (Nat × Nat)) : Reachable (newGame N mines)
  | reveal {g : Game} (row col : Nat) : Reachable g → row < g.N → col < g.N →
      Reachable (left_click g row col)
  | flag {g : Game} (row col : Nat) : Reachable g → row < g.N → col < g.N →
      Reachable (right_click g row col)

/-- The region the spec's flood-fill completeness sentence asks for, taken
literally: the 8-connected component of zero-adjacency cells containing the
start (flags and prior reveals play no role in its definition). -/
inductive SpecZeroRegion (N : Nat) (b : Board) (r0 c0 : Nat) : Nat → Nat → Prop where
  | refl : SpecZeroRegion N b r0 c0 r0 c0
  | step {r c x y : Nat} : SpecZeroRegion N b r0 c0 r c → (x, y) ∈ neighborsOf N r c →
      (b x y).adjacent_mines = 0 → SpecZeroRegion N b r0 c0 x y

/-- Claim C2 exactly as it is stated, specialized to one input: revealing an
unflagged, unrevealed, non-mine, zero-adjacency cell reveals exactly the
previously revealed cells plus the maximal zero-adjacency region of the start
and its bordering non-zero non-mine neighbors, and reveals no mine and no
flagged cell. -/
def ClaimC2At (g : Game) (row col : Nat) : Prop :=
  g.game_over = false → row < g.N → col < g.N →
  (g.board row col).is_flagged = false → (g.board row col).is_revealed = false →
  (g.board row col).is_mine = false → (g.board row col).adjacent_mines = 0 →
  ((∀ x y, ((left_click g row col).board x y).is_revealed = true ↔
      ((g.board x y).is_revealed = true ∨ SpecZeroRegion g.N g.board row col x y ∨
        (∃ z w, SpecZeroRegion g.N g.board row col z w ∧ (x, y) ∈ neighborsOf g.N z w ∧
          (g.board x y).is_mine = false ∧ (g.board x y).adjacent_mines ≠ 0))) ∧
   (∀ x y, (g.board x y).is_mine = true →
      ((left_click g row col).board x y).is_revealed = (g.board x y).is_revealed) ∧
   (∀ x y, (g.board x y).is_flagged = true →
      ((left_click g row col).board x y).is_revealed = (g.board x y).is_revealed))

/-! ### Basic lemmas about single-cell updates -/

lemma sameStatic_refl (b : Board) : sameStatic b b := fun _ _ => ⟨rfl, rfl, rfl⟩

lemma sameStatic_trans {a b c : Board} (h₁ : sameStatic a b) (h₂ : sameStatic b c) :
    sameStatic a c := by
  intro x y
  obtain ⟨m₁, f₁, a₁⟩ := h₁ x y
  obtain ⟨m₂, f₂, a₂⟩ := h₂ x y
  exact ⟨m₂.trans m₁, f₂.trans f₁, a₂.trans a₁⟩

lemma revealCell_static (b : Board) (r c : Nat) : sameStatic b (revealCell b r c) := by
  intro x y
  unfold revealCell
  split <;> simp_all

lemma revealCell_self (b : Board) (r c : Nat) :
    (revealCell b r c r c).is_revealed = true := by
  simp [revealCell]

lemma revealCell_other (b : Board) (r c x y : Nat) (h : ¬(x = r ∧ y = c)) :
    revealCell b r c x y = b x y := by
  simp [revealCell, h]

lemma revealCell_mono (b : Board) (r c x y : Nat) (h : (b x y).is_revealed = true) :
    (revealCell b r c x y).is_revealed = true := by
  unfold revealCell
  split <;> simp_all

lemma revealCell_sound (b : Board) (r c x y : Nat)
    (h : (revealCell b r c x y).is_revealed = true) :
    (b x y).is_revealed = true ∨ (x = r ∧ y = c) := by
  by_cases hxy : x = r ∧ y = c
  · exact Or.inr hxy
  · rw [revealCell_other b r c x y hxy] at h
    exact Or.inl h

lemma show_all_mines_static (N : Nat) (b : Board) : sameStatic b (show_all_mines N b) := by
  intro x y
  unfold show_all_mines
  split <;> simp_all

lemma show_all_mines_mono (N : Nat) (b : Board) (x y : Nat)
    (h : (b x y).is_revealed = true) : (show_all_mines N b x y).is_revealed = true := by
  unfold show_all_mines
  split <;> simp_all

lemma show_all_mines_mine (N : Nat) (b : Board) (x y : Nat) (hx : x < N) (hy : y < N)
    (hm : (b x y).is_mine = true) : (show_all_mines N b x y).is_revealed = true := by
  simp [show_all_mines, hx, hy, hm]

lemma show_all_mines_nonmine (N : Nat) (b : Board) (x y : Nat)
    (hm : (b x y).is_mine = false) : show_all_mines N b x y = b x y := by
  simp [show_all_mines, hm]

/-! ### Lemmas about one inner `_flood_fill` neighbor visit -/

lemma floodStep_static (st : Board × List (Nat × Nat)) (p : Nat × Nat) :
    sameStatic st.1 (floodStep st p).1 := by
  unfold floodStep
  split
  · exact revealCell_static _ _ _
  · exact sameStatic_refl _

lemma floodStep_mono (st : Board × List (Nat × Nat)) (p : Nat × Nat) (x y : Nat)
    (h : (st.1 x y).is_revealed = true) : ((floodStep st p).1 x y).is_revealed = true := by
  unfold floodStep
  split
  · exact revealCell_mono _ _ _ _ _ h
  · exact h

lemma floodStep_sound (st : Board × List (Nat × Nat)) (p : Nat × Nat) (x y : Nat)
    (h : ((floodStep st p).1 x y).is_revealed = true) :
    (st.1 x y).is_revealed = true ∨
      ((x, y) = p ∧ (st.1 x y).is_revealed = false ∧ (st.1 x y).is_flagged = false ∧
        (st.1 x y).is_mine = false) := by
  unfold floodStep at h
  split at h
  · rename_i hcond
    rcases revealCell_sound _ _ _ _ _ h with hrev | ⟨hx, hy⟩
    · exact Or.inl hrev
    · subst hx; subst hy
      exact Or.inr ⟨rfl, hcond.1, hcond.2.1, hcond.2.2⟩
  · exact Or.inl h

lemma floodStep_stack_mono (st : Board × List (Nat × Nat)) (p q : Nat × Nat)
    (h : q ∈ st.2) : q ∈ (floodStep st p).2 := by
  unfold floodStep
  split
  · dsimp only
    split
    · exact List.mem_cons_of_mem _ h
    · exact h
  · exact h

lemma floodStep_pushed (st : Board × List (Nat × Nat)) (p q : Nat × Nat)
    (h : q ∈ (floodStep st p).2) :
    q ∈ st.2 ∨
      (q = p ∧ (st.1 q.1 q.2).is_revealed = false ∧ (st.1 q.1 q.2).is_flagged = false ∧
        (st.1 q.1 q.2).is_mine = false ∧ (st.1 q.1 q.2).adjacent_mines = 0 ∧
        ((floodStep st p).1 q.1 q.2).is_revealed = true) := by
  unfold floodStep at h ⊢
  split at h
  · rename_i hcond
    dsimp only at h
    split at h
    · rename_i hzero
      rcases List.mem_cons.mp h with hq | hq
      · subst hq
        refine Or.inr ⟨rfl, hcond.1, hcond.2.1, hcond.2.2, hzero, ?_⟩
        simp [hcond, revealCell_self]
      · exact Or.inl hq
    · exact Or.inl h
  · exact Or.inl h

lemma floodStep_visits (st : Board × List (Nat × Nat)) (p : Nat × Nat)
    (hf : (st.1 p.1 p.2).is_flagged = false) (hm : (st.1 p.1 p.2).is_mine = false) :
    ((floodStep st p).1 p.1 p.2).is_revealed = true := by
  by_cases hr : (st.1 p.1 p.2).is_revealed = true
  · exact floodStep_mono st p p.1 p.2 hr
  · have hr' : (st.1 p.1 p.2).is_revealed = false := by
      cases hrev : (st.1 p.1 p.2).is_revealed
      · rfl
      · exact absurd hrev hr
    unfold floodStep
    rw [if_pos ⟨hr', hf, hm⟩]
    exact revealCell_self _ _ _

lemma floodStep_push_complete (st : Board × List (Nat × Nat)) (p : Nat × Nat) (x y : Nat)
    (h : ((floodStep st p).1 x y).is_revealed = true)
    (h0 : (st.1 x y).is_revealed = false) (hz : (st.1 x y).adjacent_mines = 0) :
    (x, y) ∈ (floodStep st p).2 := by
  rcases floodStep_sound st p x y h with hrev | ⟨hp, hunrev, hflag, hmine⟩
  · rw [h0] at hrev; cases hrev
  · unfold floodStep
    rw [if_pos (hp ▸ ⟨hunrev, hflag, hmine⟩)]
    dsimp only
    rw [if_pos (hp ▸ hz)]
    exact hp ▸ List.mem_cons_self _ _

/-! ### Counting unrevealed cells (for the termination bound of `_flood_fill`) -/

lemma unrevealedCount_le (N : Nat) (b : Board) : unrevealedCount N b ≤ N * N := by
  calc unrevealedCount N b ≤ (gridFinset N).card := Finset.card_filter_le _ _
    _ = N * N := by simp [gridFinset]

lemma unrevealedCount_revealCell (N : Nat) (b : Board) (x y : Nat)
    (hx : x < N) (hy : y < N) (h : (b x y).is_revealed = false) :
    unrevealedCount N (revealCell b x y) + 1 = unrevealedCount N b := by
  have hmem : (x, y) ∈ (gridFinset N).filter fun p => (b p.1 p.2).is_revealed = false := by
    simp [gridFinset, Finset.mem_filter, Finset.mem_product, hx, hy, h]
  have hset :
      ((gridFinset N).filter fun p => ((revealCell b x y) p.1 p.2).is_revealed = false) =
        ((gridFinset N).filter fun p => (b p.1 p.2).is_revealed = false).erase (x, y) := by
    ext p
    simp only [Finset.mem_filter, Finset.mem_erase]
    constructor
    · rintro ⟨hg, hrev⟩
      by_cases hp : p.1 = x ∧ p.2 = y
      · exfalso
        rw [show p.1 = x from hp.1, show p.2 = y from hp.2, revealCell_self] at hrev
        cases hrev
      · rw [revealCell_other b x y p.1 p.2 hp] at hrev
        refine ⟨?_, hg, hrev⟩
        intro hpe
        exact hp ⟨by rw [hpe], by rw [hpe]⟩
    · rintro ⟨hne, hg, hrev⟩
      have hp : ¬(p.1 = x ∧ p.2 = y) := by
        rintro ⟨h1, h2⟩
        exact hne (Prod.ext h1 h2)
      rw [revealCell_other b x y p.1 p.2 hp]
      exact ⟨hg, hrev⟩
  unfold unrevealedCount
  rw [hset, Finset.card_erase_of_mem hmem]
  have hpos : 0 < ((gridFinset N).filter fun p => (b p.1 p.2).is_revealed = false).card :=
    Finset.card_pos.mpr ⟨(x, y), hmem⟩
  omega

lemma unrevealedCount_mono_step (N : Nat) (st : Board × List (Nat × Nat)) (p : Nat × Nat)
    (hp : p.1 < N ∧ p.2 < N) :
    unrevealedCount N (floodStep st p).1 + (floodStep st p).2.length ≤
      unrevealedCount N st.1 + st.2.length := by
  unfold floodStep
  split
  · rename_i hcond
    dsimp only
    have hrc := unrevealedCount_revealCell N st.1 p.1 p.2 hp.1 hp.2 hcond.1
    split
    · simp only [List.length_cons]
      omega
    · omega
  · exact le_refl _

/-! ### Membership in the clipped neighbor block -/

lemma mem_adjRange (N : Nat) (i : Int) (j : Nat) :
    j ∈ adjRange N i ↔ j < N ∧ i - 1 ≤ (j : Int) ∧ (j : Int) < i + 2 := by
  simp [adjRange, List.mem_filter, List.mem_range, and_assoc]

lemma mem_neighborsOf (N : Nat) (r c : Int) (p : Nat × Nat) :
    p ∈ neighborsOf N r c ↔
      (p.1 < N ∧ r - 1 ≤ (p.1 : Int) ∧ (p.1 : Int) < r + 2) ∧
      (p.2 < N ∧ c - 1 ≤ (p.2 : Int) ∧ (p.2 : Int) < c + 2) := by
  unfold neighborsOf
  constructor
  · intro h
    rcases List.mem_flatMap.mp h with ⟨nr, hnr, hmap⟩
    rcases List.mem_map.mp hmap with ⟨nc, hnc, hp⟩
    subst hp
    exact ⟨(mem_adjRange N r nr).mp hnr, (mem_adjRange N c nc).mp hnc⟩
  · rintro ⟨h1, h2⟩
    refine List.mem_flatMap.mpr ⟨p.1, (mem_adjRange N r p.1).mpr h1, ?_⟩
    exact List.mem_map.mpr ⟨p.2, (mem_adjRange N c p.2).mpr h2, rfl⟩

lemma neighborsOf_subset_grid (N : Nat) (r c : Int) (p : Nat × Nat)
    (h : p ∈ neighborsOf N r c) : p.1 < N ∧ p.2 < N := by
  rcases (mem_neighborsOf N r c p).mp h with ⟨h1, h2⟩
  exact ⟨h1.1, h2.1⟩

/-! ### Lemmas about one full neighbor sweep (`processCell`) -/

lemma foldl_floodStep_static (l : List (Nat × Nat)) (st : Board × List (Nat × Nat)) :
    sameStatic st.1 (l.foldl floodStep st).1 := by
  induction l generalizing st with
  | nil => exact sameStatic_refl _
  | cons q l ih =>
      rw [List.foldl_cons]
      exact sameStatic_trans (floodStep_static st q) (ih (floodStep st q))

lemma foldl_floodStep_mono (l : List (Nat × Nat)) (st : Board × List (Nat × Nat)) (x y : Nat)
    (h : (st.1 x y).is_revealed = true) : ((l.foldl floodStep st).1 x y).is_revealed = true := by
  induction l generalizing st with
  | nil => exact h
  | cons q l ih =>
      rw [List.foldl_cons]
      exact ih (floodStep st q) (floodStep_mono st q x y h)

lemma foldl_floodStep_stack_mono (l : List (Nat × Nat)) (st : Board × List (Nat × Nat))
    (q : Nat × Nat) (h : q ∈ st.2) : q ∈ (l.foldl floodStep st).2 := by
  induction l generalizing st with
  | nil => exact h
  | cons p l ih =>
      rw [List.foldl_cons]
      exact ih (floodStep st p) (floodStep_stack_mono st p q h)

lemma foldl_floodStep_sound (l : List (Nat × Nat)) (st : Board × List (Nat × Nat)) (x y : Nat)
    (h : ((l.foldl floodStep st).1 x y).is_revealed = true) :
    (st.1 x y).is_revealed = true ∨
      ((x, y) ∈ l ∧ (st.1 x y).is_revealed = false ∧ (st.1 x y).is_flagged = false ∧
        (st.1 x y).is_mine = false) := by
  induction l generalizing st with
  | nil => exact Or.inl h
  | cons q l ih =>
      rw [List.foldl_cons] at h
      rcases ih (floodStep st q) h with hrev | ⟨hmem, hunrev, hflag, hmine⟩
      · rcases floodStep_sound st q x y hrev with hrev' | ⟨hq, hconds⟩
        · exact Or.inl hrev'
        · exact Or.inr ⟨hq ▸ List.mem_cons_self _ _, hconds⟩
      · obtain ⟨hm, hf, ha⟩ := floodStep_static st q x y
        have hunrev' : (st.1 x y).is_revealed = false := by
          cases hrev : (st.1 x y).is_revealed
          · rfl
          · rw [floodStep_mono st q x y hrev] at hunrev; cases hunrev
        exact Or.inr ⟨List.mem_cons_of_mem _ hmem, hunrev', hf ▸ hflag, hm ▸ hmine⟩

lemma foldl_floodStep_visits (l : List (Nat × Nat)) (st : Board × List (Nat × Nat))
    (p : Nat × Nat) (hp : p ∈ l) (hf : (st.1 p.1 p.2).is_flagged = false)
    (hm : (st.1 p.1 p.2).is_mine = false) :
    ((l.foldl floodStep st).1 p.1 p.2).is_revealed = true := by
  induction l generalizing st with
  | nil => cases hp
  | cons q l ih =>
      rw [List.foldl_cons]
      rcases List.mem_cons.mp hp with hq | hq
      · subst hq
        exact foldl_floodStep_mono l (floodStep st p) p.1 p.2 (floodStep_visits st p hf hm)
      · obtain ⟨hm', hf', _⟩ := floodStep_static st q p.1 p.2
        exact ih (floodStep st q) hq (hf' ▸ hf) (hm' ▸ hm)

lemma foldl_floodStep_pushed (l : List (Nat × Nat)) (st : Board × List (Nat × Nat))
    (q : Nat × Nat) (h : q ∈ (l.foldl floodStep st).2) :
    q ∈ st.2 ∨
      (q ∈ l ∧ (st.1 q.1 q.2).is_revealed = false ∧ (st.1 q.1 q.2).is_flagged = false ∧
        (st.1 q.1 q.2).is_mine = false ∧ (st.1 q.1 q.2).adjacent_mines = 0 ∧
        ((l.foldl floodStep st).1 q.1 q.2).is_revealed = true) := by
  induction l generalizing st with
  | nil => exact Or.inl h
  | cons p l ih =>
      rw [List.foldl_cons] at h ⊢
      rcases ih (floodStep st p) h with hst | ⟨hmem, hunrev, hflag, hmine, hzero, hrev⟩
      · rcases floodStep_pushed st p q hst with hst' | ⟨hq, hunrev, hflag, hmine, hzero, hrev⟩
        · exact Or.inl hst'
        · refine Or.inr ⟨hq ▸ List.mem_cons_self _ _, hunrev, hflag, hmine, hzero, ?_⟩
          exact foldl_floodStep_mono l (floodStep st p) q.1 q.2 hrev
      · obtain ⟨hm, hf, ha⟩ := floodStep_static st p q.1 q.2
        have hunrev' : (st.1 q.1 q.2).is_revealed = false := by
          cases hrev' : (st.1 q.1 q.2).is_revealed
          · rfl
          · rw [floodStep_mono st p q.1 q.2 hrev'] at hunrev; cases hunrev
        exact Or.inr ⟨List.mem_cons_of_mem _ hmem, hunrev', hf ▸ hflag, hm ▸ hmine,
          ha ▸ hzero, hrev⟩

lemma foldl_floodStep_push_complete (l : List (Nat × Nat)) (st : Board × List (Nat × Nat))
    (x y : Nat) (h : ((l.foldl floodStep st).1 x y).is_revealed = true)
    (h0 : (st.1 x y).is_revealed = false) (hz : (st.1 x y).adjacent_mines = 0) :
    (x, y) ∈ (l.foldl floodStep st).2 := by
  induction l generalizing st with
  | nil => rw [List.foldl_nil] at h; rw [h0] at h; cases h
  | cons p l ih =>
      rw [List.foldl_cons] at h ⊢
      by_cases hrev : ((floodStep st p).1 x y).is_revealed = true
      · have hpush := floodStep_push_complete st p x y hrev h0 hz
        exact foldl_floodStep_stack_mono l (floodStep st p) (x, y) hpush
      · have hunrev : ((floodStep st p).1 x y).is_revealed = false := by
          cases hr : ((floodStep st p).1 x y).is_revealed
          · rfl
          · exact absurd hr hrev
        obtain ⟨_, _, ha⟩ := floodStep_static st p x y
        exact ih (floodStep st p) h hunrev (ha ▸ hz)

lemma foldl_floodStep_count (N : Nat) (l : List (Nat × Nat)) (st : Board × List (Nat × Nat))
    (hl : ∀ p ∈ l, p.1 < N ∧ p.2 < N) :
    unrevealedCount N (l.foldl floodStep st).1 + (l.foldl floodStep st).2.length ≤
      unrevealedCount N st.1 + st.2.length := by
  induction l generalizing st with
  | nil => exact le_refl _
  | cons p l ih =>
      rw [List.foldl_cons]
      calc unrevealedCount N ((l.foldl floodStep (floodStep st p)).1) +
            (l.foldl floodStep (floodStep st p)).2.length ≤
          unrevealedCount N (floodStep st p).1 + (floodStep st p).2.length :=
            ih (floodStep st p) (fun q hq => hl q (List.mem_cons_of_mem _ hq))
        _ ≤ unrevealedCount N st.1 + st.2.length :=
            unrevealedCount_mono_step N st p (hl p (List.mem_cons_self _ _))

lemma processCell_static (N : Nat) (b : Board) (r c : Int) :
    sameStatic b (processCell N b r c).1 :=
  foldl_floodStep_static _ (b, [])

lemma processCell_mono (N : Nat) (b : Board) (r c : Int) (x y : Nat)
    (h : (b x y).is_revealed = true) : ((processCell N b r c).1 x y).is_revealed = true :=
  foldl_floodStep_mono _ (b, []) x y h

lemma processCell_sound (N : Nat) (b : Board) (r c : Int) (x y : Nat)
    (h : ((processCell N b r c).1 x y).is_revealed = true) :
    (b x y).is_revealed = true ∨
      ((x, y) ∈ neighborsOf N r c ∧ (b x y).is_revealed = false ∧
        (b x y).is_flagged = false ∧ (b x y).is_mine = false) :=
  foldl_floodStep_sound _ (b, []) x y h

lemma processCell_visits (N : Nat) (b : Board) (r c : Int) (p : Nat × Nat)
    (hp : p ∈ neighborsOf N r c) (hf : (b p.1 p.2).is_flagged = false)
    (hm : (b p.1 p.2).is_mine = false) :
    ((processCell N b r c).1 p.1 p.2).is_revealed = true :=
  foldl_floodStep_visits _ (b, []) p hp hf hm

lemma processCell_pushed (N : Nat) (b : Board) (r c : Int) (q : Nat × Nat)
    (h : q ∈ (processCell N b r c).2) :
    q ∈ neighborsOf N r c ∧ (b q.1 q.2).is_revealed = false ∧
      (b q.1 q.2).is_flagged = false ∧ (b q.1 q.2).is_mine = false ∧
      (b q.1 q.2).adjacent_mines = 0 ∧ ((processCell N b r c).1 q.1 q.2).is_revealed = true := by
  rcases foldl_floodStep_pushed _ (b, []) q h with hnil | hq
  · cases hnil
  · exact hq

lemma processCell_push_complete (N : Nat) (b : Board) (r c : Int) (x y : Nat)
    (h : ((processCell N b r c).1 x y).is_revealed = true)
    (h0 : (b x y).is_revealed = false) (hz : (b x y).adjacent_mines = 0) :
    (x, y) ∈ (processCell N b r c).2 :=
  foldl_floodStep_push_complete _ (b, []) x y h h0 hz

lemma processCell_count (N : Nat) (b : Board) (r c : Int) :
    unrevealedCount N (processCell N b r c).1 + (processCell N b r c).2.length ≤
      unrevealedCount N b := by
  have := foldl_floodStep_count N (neighborsOf N r c) (b, [])
    (fun p hp => neighborsOf_subset_grid N r c p hp)
  simpa using this

/-! ### Lemmas about the `while stack` loop -/

lemma floodLoop_static (N : Nat) :
    ∀ (fuel : Nat) (b : Board) (stack : List (Nat × Nat)) (b' : Board),
      floodLoop N b stack fuel = some b' → sameStatic b b' := by
  intro fuel
  induction fuel with
  | zero =>
      intro b stack b' h
      cases stack with
      | nil => cases h; exact sameStatic_refl _
      | cons p stk => cases h
  | succ fuel ih =>
      intro b stack b' h
      cases stack with
      | nil => cases h; exact sameStatic_refl _
      | cons p stk =>
          rw [floodLoop] at h
          exact sameStatic_trans (processCell_static N b p.1 p.2) (ih _ _ _ h)

lemma floodLoop_mono (N : Nat) :
    ∀ (fuel : Nat) (b : Board) (stack : List (Nat × Nat)) (b' : Board),
      floodLoop N b stack fuel = some b' →
      ∀ x y, (b x y).is_revealed = true → (b' x y).is_revealed = true := by
  intro fuel
  induction fuel with
  | zero =>
      intro b stack b' h
      cases stack with
      | nil => cases h; exact fun x y hxy => hxy
      | cons p stk => cases h
  | succ fuel ih =>
      intro b stack b' h x y hxy
      cases stack with
      | nil => cases h; exact hxy
      | cons p stk =>
          rw [floodLoop] at h
          exact ih _ _ _ h x y (processCell_mono N b p.1 p.2 x y hxy)

lemma floodLoop_sound_basic (N : Nat) :
    ∀ (fuel : Nat) (b : Board) (stack : List (Nat × Nat)) (b' : Board),
      floodLoop N b stack fuel = some b' →
      ∀ x y, (b' x y).is_revealed = true →
        (b x y).is_revealed = true ∨
          ((b x y).is_flagged = false ∧ (b x y).is_mine = false) := by
  intro fuel
  induction fuel with
  | zero =>
      intro b stack b' h
      cases stack with
      | nil => cases h; exact fun x y hxy => Or.inl hxy
      | cons p stk => cases h
  | succ fuel ih =>
      intro b stack b' h x y hxy
      cases stack with
      | nil => cases h; exact Or.inl hxy
      | cons p stk =>
          rw [floodLoop] at h
          obtain ⟨hm, hf, _⟩ := processCell_static N b p.1 p.2 x y
          rcases ih _ _ _ h x y hxy with hrev | ⟨hflag, hmine⟩
          · rcases processCell_sound N b p.1 p.2 x y hrev with hrev' | ⟨_, _, hflag, hmine⟩
            · exact Or.inl hrev'
            · exact Or.inr ⟨hflag, hmine⟩
          · exact Or.inr ⟨hf ▸ hflag, hm ▸ hmine⟩

lemma floodLoop_isSome (N : Nat) :
    ∀ (fuel : Nat) (b : Board) (stack : List (Nat × Nat)),
      unrevealedCount N b + stack.length ≤ fuel →
      ∃ b', floodLoop N b stack fuel = some b' := by
  intro fuel
  induction fuel with
  | zero =>
      intro b stack hle
      cases stack with
      | nil => exact ⟨b, rfl⟩
      | cons p stk => simp at hle
  | succ fuel ih =>
      intro b stack hle
      cases stack with
      | nil => exact ⟨b, rfl⟩
      | cons p stk =>
          rw [floodLoop]
          refine ih _ _ ?_
          have hcount := processCell_count N b p.1 p.2
          simp only [List.length_append, List.length_cons] at hle ⊢
          omega

/-- `floodLoop` with the fuel used by `flood_fill` always returns `some`:
the loop runs for at most `N * N + 1` iterations, because on every iteration
either a never-revealed cell becomes revealed (each push accompanies such a
transition) or the stack strictly shrinks. -/
lemma flood_fill_eq (N : Nat) (b : Board) (row col : Nat) :
    floodLoop N b [(row, col)] (floodFuel N) = some (flood_fill N b row col) := by
  obtain ⟨b', hb'⟩ := floodLoop_isSome N (floodFuel N) b [(row, col)]
    (by have := unrevealedCount_le N b; simp [floodFuel]; omega)
  rw [flood_fill, hb', Option.getD_some]

lemma flood_fill_static (N : Nat) (b : Board) (row col : Nat) :
    sameStatic b (flood_fill N b row col) :=
  floodLoop_static N (floodFuel N) b [(row, col)] _ (flood_fill_eq N b row col)

lemma flood_fill_mono (N : Nat) (b : Board) (row col : Nat) (x y : Nat)
    (h : (b x y).is_revealed = true) : ((flood_fill N b row col) x y).is_revealed = true :=
  floodLoop_mono N (floodFuel N) b [(row, col)] _ (flood_fill_eq N b row col) x y h

lemma flood_fill_sound_basic (N : Nat) (b : Board) (row col : Nat) (x y : Nat)
    (h : ((flood_fill N b row col) x y).is_revealed = true) :
    (b x y).is_revealed = true ∨ ((b x y).is_flagged = false ∧ (b x y).is_mine = false) :=
  floodLoop_sound_basic N (floodFuel N) b [(row, col)] _ (flood_fill_eq N b row col) x y h

/-! ### Exact characterization of the set revealed by `_flood_fill` -/

lemma floodReach_cases (N : Nat) (b : Board) (r0 c0 x y : Nat)
    (h : FloodReach N b r0 c0 x y) :
    (x = r0 ∧ y = c0) ∨
      ((b x y).is_revealed = false ∧ (b x y).is_flagged = false ∧ (b x y).is_mine = false) := by
  cases h with
  | start => exact Or.inl ⟨rfl, rfl⟩
  | step _ _ _ hunrev hflag hmine => exact Or.inr ⟨hunrev, hflag, hmine⟩

lemma floodInv_step (N : Nat) (b0 : Board) (r0 c0 : Nat) (b : Board)
    (p : Nat × Nat) (stk : List (Nat × Nat))
    (hinv : floodInv N b0 r0 c0 b (p :: stk)) :
    floodInv N b0 r0 c0 (processCell N b p.1 p.2).1 ((processCell N b p.1 p.2).2 ++ stk) := by
  obtain ⟨hstat, hmono, hsound, hstack, hfront⟩ := hinv
  obtain ⟨hreachp, hrevp, hadjp⟩ := hstack p (List.mem_cons_self _ _)
  have hunrev_b0 : ∀ x y, (b x y).is_revealed = false → (b0 x y).is_revealed = false := by
    intro x y hb
    cases hb0 : (b0 x y).is_revealed
    · rfl
    · rw [hmono x y hb0] at hb; cases hb
  refine ⟨?_, ?_, ?_, ?_, ?_⟩
  · exact sameStatic_trans hstat (processCell_static N b p.1 p.2)
  · exact fun x y h => processCell_mono N b p.1 p.2 x y (hmono x y h)
  · intro x y h
    rcases processCell_sound N b p.1 p.2 x y h with hrev | ⟨hmem, hunrev, hflag, hmine⟩
    · exact hsound x y hrev
    · obtain ⟨hm, hf, _⟩ := hstat x y
      exact Or.inr (FloodReach.step hreachp hadjp hmem (hunrev_b0 x y hunrev)
        (hf ▸ hflag) (hm ▸ hmine))
  · intro q hq
    rcases List.mem_append.mp hq with hq | hq
    · obtain ⟨hmemq, hunrevq, hflagq, hmineq, hadjq, hrevq⟩ :=
        processCell_pushed N b p.1 p.2 q hq
      obtain ⟨hm, hf, ha⟩ := hstat q.1 q.2
      exact ⟨FloodReach.step hreachp hadjp hmemq (hunrev_b0 q.1 q.2 hunrevq)
          (hf ▸ hflagq) (hm ▸ hmineq), hrevq, ha ▸ hadjq⟩
    · obtain ⟨hr, hrev, hadj⟩ := hstack q (List.mem_cons_of_mem _ hq)
      exact ⟨hr, processCell_mono N b p.1 p.2 q.1 q.2 hrev, hadj⟩
  · intro x y hreach hrev hadj
    by_cases hb : (b x y).is_revealed = true
    · rcases hfront x y hreach hb hadj with hmem | hnbrs
      · rcases List.mem_cons.mp hmem with hxy | hxy
        · right
          intro q hq hqf hqm
          obtain ⟨hm, hf, _⟩ := hstat q.1 q.2
          subst hxy
          exact processCell_visits N b x y q hq (hf ▸ hqf) (hm ▸ hqm)
        · exact Or.inl (List.mem_append.mpr (Or.inr hxy))
      · right
        intro q hq hqf hqm
        exact processCell_mono N b p.1 p.2 q.1 q.2 (hnbrs q hq hqf hqm)
    · have hbf : (b x y).is_revealed = false := by
        cases hr : (b x y).is_revealed
        · rfl
        · exact absurd hr hb
      obtain ⟨_, _, ha⟩ := hstat x y
      exact Or.inl (List.mem_append.mpr (Or.inl
        (processCell_push_complete N b p.1 p.2 x y hrev hbf (ha ▸ hadj))))

lemma floodLoop_inv (N : Nat) (b0 : Board) (r0 c0 : Nat) :
    ∀ (fuel : Nat) (b : Board) (stack : List (Nat × Nat)) (b' : Board),
      floodLoop N b stack fuel = some b' → floodInv N b0 r0 c0 b stack →
      floodInv N b0 r0 c0 b' [] := by
  intro fuel
  induction fuel with
  | zero =>
      intro b stack b' h hinv
      cases stack with
      | nil => cases h; exact hinv
      | cons p stk => cases h
  | succ fuel ih =>
      intro b stack b' h hinv
      cases stack with
      | nil => cases h; exact hinv
      | cons p stk =>
          rw [floodLoop] at h
          exact ih _ _ _ h (floodInv_step N b0 r0 c0 b p stk hinv)

/-- The set of cells revealed after `_flood_fill` is exactly the previously
revealed cells together with the `FloodReach` closure of the start. -/
lemma flood_fill_spec (N : Nat) (b0 : Board) (r0 c0 : Nat)
    (hrev : (b0 r0 c0).is_revealed = true) (hadj : (b0 r0 c0).adjacent_mines = 0) :
    ∀ x y, ((flood_fill N b0 r0 c0) x y).is_revealed = true ↔
      ((b0 x y).is_revealed = true ∨ FloodReach N b0 r0 c0 x y) := by
  have heq := flood_fill_eq N b0 r0 c0
  have hinit : floodInv N b0 r0 c0 b0 [(r0, c0)] := by
    refine ⟨sameStatic_refl _, fun x y h => h, fun x y h => Or.inl h, ?_, ?_⟩
    · intro q hq
      rcases List.mem_singleton.mp hq with rfl
      exact ⟨FloodReach.start, hrev, hadj⟩
    · intro x y hr hxyrev _
      rcases floodReach_cases N b0 r0 c0 x y hr with ⟨rfl, rfl⟩ | ⟨hunrev, _, _⟩
      · exact Or.inl (List.mem_singleton.mpr rfl)
      · rw [hunrev] at hxyrev; cases hxyrev
  obtain ⟨_, hmono, hsound, _, hfront⟩ :=
    floodLoop_inv N b0 r0 c0 (floodFuel N) b0 [(r0, c0)] _ heq hinit
  have hcomplete : ∀ x y, FloodReach N b0 r0 c0 x y →
      ((flood_fill N b0 r0 c0) x y).is_revealed = true := by
    intro x y hr
    induction hr with
    | start => exact hmono r0 c0 hrev
    | step hparent hadj0 hmem hunrev hflag hmine ih =>
        rcases hfront _ _ hparent ih hadj0 with hmem' | hnbrs
        · cases hmem'
        · exact hnbrs _ hmem hflag hmine
  intro x y
  constructor
  · exact hsound x y
  · rintro (h | h)
    · exact hmono x y h
    · exact hcomplete x y h

/-! ### Branch lemmas for the two click handlers -/

lemma check_win_iff (N : Nat) (b : Board) :
    check_win N b = true ↔
      ∀ r < N, ∀ c < N, (b r c).is_mine = false → (b r c).is_revealed = true := by
  simp [check_win]

lemma left_click_game_over (g : Game) (row col : Nat) (h : g.game_over = true) :
    left_click g row col = g := by
  simp [left_click, h]

lemma left_click_noop (g : Game) (row col : Nat)
    (h : (g.board row col).is_flagged = true ∨ (g.board row col).is_revealed = true) :
    left_click g row col = g := by
  rcases h with h | h <;> simp [left_click, h]

lemma left_click_mine_eq (g : Game) (row col : Nat)
    (hgo : g.game_over = false) (hf : (g.board row col).is_flagged = false)
    (hr : (g.board row col).is_revealed = false) (hm : (g.board row col).is_mine = true) :
    left_click g row col =
      { g with board := show_all_mines g.N (revealCell g.board row col),
               game_over := true, outcome := Outcome.lost } := by
  simp [left_click, hgo, hf, hr, hm]

lemma left_click_nonmine_board (g : Game) (row col : Nat)
    (hgo : g.game_over = false) (hf : (g.board row col).is_flagged = false)
    (hr : (g.board row col).is_revealed = false) (hm : (g.board row col).is_mine = false) :
    (left_click g row col).board =
      (if (g.board row col).adjacent_mines = 0
        then flood_fill g.N (revealCell g.board row col) row col
        else revealCell g.board row col) := by
  simp only [left_click, hgo, hf, hr, hm, Bool.false_eq_true, if_false, Bool.or_self]
  repeat' split
  all_goals rfl

lemma left_click_zero_board (g : Game) (row col : Nat)
    (hgo : g.game_over = false) (hf : (g.board row col).is_flagged = false)
    (hr : (g.board row col).is_revealed = false) (hm : (g.board row col).is_mine = false)
    (ha : (g.board row col).adjacent_mines = 0) :
    (left_click g row col).board = flood_fill g.N (revealCell g.board row col) row col := by
  rw [left_click_nonmine_board g row col hgo hf hr hm, if_pos ha]

lemma left_click_nonmine_eq (g : Game) (row col : Nat)
    (hgo : g.game_over = false) (hf : (g.board row col).is_flagged = false)
    (hr : (g.board row col).is_revealed = false) (hm : (g.board row col).is_mine = false) :
    left_click g row col =
      if check_win g.N (if (g.board row col).adjacent_mines = 0
          then flood_fill g.N (revealCell g.board row col) row col
          else revealCell g.board row col) = true
      then { g with
             board := (if (g.board row col).adjacent_mines = 0
                 then flood_fill g.N (revealCell g.board row col) row col
                 else revealCell g.board row col),
             game_over := true,
             outcome := Outcome.won }
      else { g with
             board := (if (g.board row col).adjacent_mines = 0
                 then flood_fill g.N (revealCell g.board row col) row col
                 else revealCell g.board row col) } := by
  simp only [left_click, hgo, hf, hr, hm, Bool.false_eq_true, if_false, Bool.or_self]

lemma pyIndex_none (len : Nat) (i : Int)
    (h : i < -(len : Int) ∨ (len : Int) ≤ i) : pyIndex len i = none := by
  unfold pyIndex
  rw [if_neg (by omega), if_neg (by omega)]

lemma left_click_N (g : Game) (row col : Nat) : (left_click g row col).N = g.N := by
  unfold left_click
  repeat' split
  all_goals rfl

lemma right_click_N (g : Game) (row col : Nat) : (right_click g row col).N = g.N := by
  unfold right_click
  repeat' split
  all_goals rfl

lemma left_click_is_mine (g : Game) (row col x y : Nat) :
    ((left_click g row col).board x y).is_mine = (g.board x y).is_mine := by
  obtain ⟨hm1, _, _⟩ := revealCell_static g.board row col x y
  obtain ⟨hm2, _, _⟩ := show_all_mines_static g.N (revealCell g.board row col) x y
  obtain ⟨hm3, _, _⟩ := flood_fill_static g.N (revealCell g.board row col) row col x y
  unfold left_click
  repeat' split
  all_goals first
    | rfl
    | exact hm2.trans hm1
    | exact hm3.trans hm1
    | exact hm1

lemma left_click_is_flagged (g : Game) (row col x y : Nat) :
    ((left_click g row col).board x y).is_flagged = (g.board x y).is_flagged := by
  obtain ⟨_, hf1, _⟩ := revealCell_static g.board row col x y
  obtain ⟨_, hf2, _⟩ := show_all_mines_static g.N (revealCell g.board row col) x y
  obtain ⟨_, hf3, _⟩ := flood_fill_static g.N (revealCell g.board row col) row col x y
  unfold left_click
  repeat' split
  all_goals first
    | rfl
    | exact hf2.trans hf1
    | exact hf3.trans hf1
    | exact hf1

lemma right_click_game_over_eq (g : Game) (row col : Nat) (h : g.game_over = true) :
    right_click g row col = g := by
  simp [right_click, h]

lemma right_click_is_mine (g : Game) (row col x y : Nat) :
    ((right_click g row col).board x y).is_mine = (g.board x y).is_mine := by
  unfold right_click
  split
  · rfl
  split
  · rfl
  dsimp only
  by_cases hxy : x = row ∧ y = col
  · rw [if_pos hxy, hxy.1, hxy.2]
  · rw [if_neg hxy]

lemma right_click_is_revealed (g : Game) (row col x y : Nat) :
    ((right_click g row col).board x y).is_revealed = (g.board x y).is_revealed := by
  unfold right_click
  split
  · rfl
  split
  · rfl
  dsimp only
  by_cases hxy : x = row ∧ y = col
  · rw [if_pos hxy, hxy.1, hxy.2]
  · rw [if_neg hxy]

lemma right_click_game_over (g : Game) (row col : Nat) :
    (right_click g row col).game_over = g.game_over := by
  unfold right_click
  repeat' split
  all_goals rfl

lemma left_click_game_over_mono (g : Game) (row col : Nat) (h : g.game_over = true) :
    (left_click g row col).game_over = true := by
  rw [left_click_game_over g row col h]
  exact h

/-! ### Adjacency counting versus the spec's Moore neighborhood -/

lemma adjRange_nodup (N : Nat) (i : Int) : (adjRange N i).Nodup :=
  List.Nodup.filter _ (List.nodup_range N)

lemma neighborsOf_eq_product (N : Nat) (r c : Int) :
    neighborsOf N r c = adjRange N r ×ˢ adjRange N c := rfl

lemma neighborsOf_nodup (N : Nat) (r c : Int) : (neighborsOf N r c).Nodup := by
  rw [neighborsOf_eq_product]
  exact (adjRange_nodup N r).product (adjRange_nodup N c)

lemma countAdjacent_eq_card (N : Nat) (b : Board) (r c : Nat)
    (hm : (b r c).is_mine = false) :
    countAdjacent N b r c =
      ((specMooreNeighbors N r c).filter fun p => (b p.1 p.2).is_mine = true).card := by
  unfold countAdjacent
  rw [List.countP_eq_length_filter,
    ← List.toFinset_card_of_nodup (List.Nodup.filter _ (neighborsOf_nodup N r c)),
    List.toFinset_filter]
  congr 1
  ext q
  simp only [Finset.mem_filter, List.mem_toFinset, specMooreNeighbors,
    Finset.mem_product, Finset.mem_range, mem_neighborsOf]
  constructor
  · rintro ⟨⟨⟨h1N, h1l, h1r⟩, ⟨h2N, h2l, h2r⟩⟩, hmine⟩
    have hmine' : (b q.1 q.2).is_mine = true := by simpa using hmine
    refine ⟨⟨⟨h1N, h2N⟩, ?_, ?_, ?_, ?_, ?_⟩, hmine'⟩
    · intro hq
      rw [hq] at hmine'
      rw [hmine'] at hm
      cases hm
    · omega
    · omega
    · omega
    · omega
  · rintro ⟨⟨⟨h1N, h2N⟩, _, h1, h2, h3, h4⟩, hmine⟩
    refine ⟨⟨⟨h1N, ?_, ?_⟩, ⟨h2N, ?_, ?_⟩⟩, by simpa using hmine⟩ <;> omega

lemma calculate_adjacency_is_mine (N : Nat) (b : Board) (x y : Nat) :
    ((calculate_adjacency N b) x y).is_mine = (b x y).is_mine := by
  unfold calculate_adjacency
  split <;> rfl

lemma calculate_adjacency_flags (N : Nat) (b : Board) (x y : Nat) :
    ((calculate_adjacency N b) x y).is_flagged = (b x y).is_flagged := by
  unfold calculate_adjacency
  split <;> rfl

lemma calculate_adjacency_revealed (N : Nat) (b : Board) (x y : Nat) :
    ((calculate_adjacency N b) x y).is_revealed = (b x y).is_revealed := by
  unfold calculate_adjacency
  split <;> rfl

lemma place_mines_is_mine (b : Board) (mines : List (Nat × Nat)) (x y : Nat) :
    ((place_mines b mines) x y).is_mine = ((x, y) ∈ mines || (b x y).is_mine) := by
  unfold place_mines
  split
  · rename_i h
    simp [h]
  · rename_i h
    simp [h]

lemma generateBoard_is_mine (N : Nat) (mines : List (Nat × Nat)) (x y : Nat) :
    (generateBoard N mines x y).is_mine = decide ((x, y) ∈ mines) := by
  unfold generateBoard
  rw [calculate_adjacency_is_mine, place_mines_is_mine]
  by_cases h : (x, y) ∈ mines <;> simp [h, emptyBoard, mkCell]

/-! ### Mine count -/

lemma applyMove_is_mine (g : Game) (m : Move) (x y : Nat) :
    ((applyMove g m).board x y).is_mine = (g.board x y).is_mine := by
  cases m with
  | reveal row col => exact left_click_is_mine g row col x y
  | flag row col => exact right_click_is_mine g row col x y

lemma applyMoves_is_mine (ms : List Move) (g : Game) (x y : Nat) :
    ((applyMoves g ms).board x y).is_mine = (g.board x y).is_mine := by
  induction ms generalizing g with
  | nil => rfl
  | cons m ms ih =>
      unfold applyMoves at ih ⊢
      rw [List.foldl_cons, ih (applyMove g m), applyMove_is_mine]

lemma mineCount_congr (N : Nat) (b b' : Board)
    (h : ∀ x y, (b' x y).is_mine = (b x y).is_mine) : mineCount N b' = mineCount N b := by
  unfold mineCount
  congr 1
  apply Finset.filter_congr
  intro p _
  rw [h p.1 p.2]

lemma mineCount_generate (N : Nat) (mines : List (Nat × Nat)) (hnodup : mines.Nodup)
    (hrange : ∀ p ∈ mines, p.1 < N ∧ p.2 < N) :
    mineCount N (generateBoard N mines) = mines.length := by
  unfold mineCount
  have hset : ((gridFinset N).filter fun p => (generateBoard N mines p.1 p.2).is_mine = true) =
      mines.toFinset := by
    ext p
    simp only [Finset.mem_filter, gridFinset, Finset.mem_product, Finset.mem_range,
      List.mem_toFinset, generateBoard_is_mine, decide_eq_true_eq, Prod.mk.eta]
    constructor
    · rintro ⟨_, h⟩
      exact h
    · intro h
      exact ⟨hrange p h, h⟩
  rw [hset, List.toFinset_card_of_nodup hnodup]

/-! ### Fresh boards and reachable states -/

lemma place_mines_revealed (b : Board) (mines : List (Nat × Nat)) (x y : Nat) :
    ((place_mines b mines) x y).is_revealed = (b x y).is_revealed := by
  unfold place_mines
  split <;> rfl

lemma place_mines_flagged (b : Board) (mines : List (Nat × Nat)) (x y : Nat) :
    ((place_mines b mines) x y).is_flagged = (b x y).is_flagged := by
  unfold place_mines
  split <;> rfl

lemma generateBoard_revealed (N : Nat) (mines : List (Nat × Nat)) (x y : Nat) :
    (generateBoard N mines x y).is_revealed = false := by
  unfold generateBoard
  rw [calculate_adjacency_revealed, place_mines_revealed]
  rfl

lemma generateBoard_flagged (N : Nat) (mines : List (Nat × Nat)) (x y : Nat) :
    (generateBoard N mines x y).is_flagged = false := by
  unfold generateBoard
  rw [calculate_adjacency_flags, place_mines_flagged]
  rfl

lemma show_all_mines_revealed_cases (N : Nat) (b : Board) (x y : Nat)
    (h : (show_all_mines N b x y).is_revealed = true) :
    (b x y).is_revealed = true ∨ (b x y).is_mine = true := by
  unfold show_all_mines at h
  split at h
  · rename_i hc
    exact Or.inr hc.2.2
  · exact Or.inl h

lemma right_click_board_other (g : Game) (row col x y : Nat) (h : ¬(x = row ∧ y = col)) :
    (right_click g row col).board x y = g.board x y := by
  unfold right_click
  split
  · rfl
  split
  · rfl
  dsimp only
  rw [if_neg h]

/-- The inductive invariant behind claim C1: in any reachable state, a cell
that is both flagged and revealed can only be a mine disclosed by
`_show_all_mines` after a loss. -/
lemma reachable_flag_reveal (g : Game) (hg : Reachable g) :
    ∀ x y, (g.board x y).is_flagged = true → (g.board x y).is_revealed = true →
      (g.board x y).is_mine = true ∧ g.game_over = true ∧ g.outcome = Outcome.lost := by
  induction hg with
  | init N mines =>
      intro x y _ hr
      rw [show (newGame N mines).board = generateBoard N mines from rfl,
        generateBoard_revealed] at hr
      cases hr
  | reveal row col hg hrow hcol ih =>
      rename_i g
      by_cases hgo : g.game_over = true
      · rw [left_click_game_over g row col hgo]
        exact ih
      have hgo' : g.game_over = false := by
        cases h : g.game_over
        · rfl
        · exact absurd h hgo
      have hnopair : ∀ x y, (g.board x y).is_flagged = true →
          (g.board x y).is_revealed = true → False := by
        intro x y hf hr
        obtain ⟨_, hgoT, _⟩ := ih x y hf hr
        rw [hgo'] at hgoT
        cases hgoT
      by_cases hnoop : (g.board row col).is_flagged = true ∨ (g.board row col).is_revealed = true
      · rw [left_click_noop g row col hnoop]
        exact ih
      push_neg at hnoop
      have hf : (g.board row col).is_flagged = false := by
        cases h : (g.board row col).is_flagged
        · rfl
        · exact absurd h hnoop.1
      have hr : (g.board row col).is_revealed = false := by
        cases h : (g.board row col).is_revealed
        · rfl
        · exact absurd h hnoop.2
      intro x y hf' hr'
      have hfg : (g.board x y).is_flagged = true := by
        rw [← left_click_is_flagged g row col x y]
        exact hf'
      by_cases hm : (g.board row col).is_mine = true
      · -- mine: every mine is disclosed; a flagged revealed cell must be a mine
        rw [left_click_mine_eq g row col hgo' hf hr hm] at hr' ⊢
        refine ⟨?_, rfl, rfl⟩
        dsimp only at hr' ⊢
        rcases show_all_mines_revealed_cases _ _ x y hr' with hrev1 | hmine1
        · rcases revealCell_sound _ _ _ _ _ hrev1 with hrevg | ⟨hx, hy⟩
          · exact absurd hrevg (fun h => hnopair x y hfg h)
          · subst hx; subst hy
            rw [hf] at hfg
            cases hfg
        · obtain ⟨hm2, _, _⟩ := show_all_mines_static g.N (revealCell g.board row col) x y
          rw [hm2]
          exact hmine1
      · -- non-mine: flood fill and the initial reveal only touch unflagged cells
        exfalso
        have hm' : (g.board row col).is_mine = false := by
          cases h : (g.board row col).is_mine
          · rfl
          · exact absurd h hm
        rw [left_click_nonmine_board g row col hgo' hf hr hm'] at hr'
        obtain ⟨_, hfl1, _⟩ := revealCell_static g.board row col x y
        have hb1 : (revealCell g.board row col x y).is_revealed = true → False := by
          intro h1
          rcases revealCell_sound _ _ _ _ _ h1 with hrevg | ⟨hx, hy⟩
          · exact hnopair x y hfg hrevg
          · subst hx; subst hy
            rw [hf] at hfg
            cases hfg
        split at hr'
        · rcases flood_fill_sound_basic g.N (revealCell g.board row col) row col x y hr' with
            h1 | ⟨hfl, _⟩
          · exact hb1 h1
          · rw [hfl1, hfg] at hfl
            cases hfl
        · exact hb1 hr'
  | flag row col hg hrow hcol ih =>
      rename_i g
      by_cases hgo : g.game_over = true
      · rw [right_click_game_over_eq g row col hgo]
        exact ih
      have hgo' : g.game_over = false := by
        cases h : g.game_over
        · rfl
        · exact absurd h hgo
      intro x y hf' hr'
      have hrg : (g.board x y).is_revealed = true := by
        rw [← right_click_is_revealed g row col x y]
        exact hr'
      by_cases hxy : x = row ∧ y = col
      · -- target of the toggle: it was unrevealed or the click was a no-op
        by_cases hrev : (g.board row col).is_revealed = true
        · have heq : right_click g row col = g := by
            simp [right_click, hgo', hrev]
          rw [heq] at hf' hr' ⊢
          exact ih x y hf' hr'
        · exfalso
          rw [hxy.1, hxy.2] at hrg
          exact hrev hrg
      · rw [right_click_board_other g row col x y hxy] at hf'
        obtain ⟨_, hgoT, _⟩ := ih x y hf' hrg
        rw [hgo'] at hgoT
        cases hgoT

/-! ### Claim theorems -/

/-- C7: once `game_over = true`, any subsequent `left_click` or `right_click`
at any coordinates returns the state unchanged — every cell field and the
`game_over` flag are identical before and after, so the game never
transitions back to in-progress. -/
theorem terminal_state_immutable (g : Game) (h : g.game_over = true) (row col : Nat) :
    left_click g row col = g ∧ right_click g row col = g :=
  ⟨left_click_game_over g row col h, right_click_game_over_eq g row col h⟩

/-- Witness for C7 at a concrete lost game: revealing the mine at (0,0) of a
2×2 board ends the game, and further clicks change nothing. -/
theorem terminal_state_immutable_witness :
    (left_click (newGame 2 [(0, 0)]) 0 0).game_over = true ∧
    left_click (left_click (newGame 2 [(0, 0)]) 0 0) 1 1 =
      left_click (newGame 2 [(0, 0)]) 0 0 ∧
    right_click (left_click (newGame 2 [(0, 0)]) 0 0) 1 1 =
      left_click (newGame 2 [(0, 0)]) 0 0 := by
  have h : (left_click (newGame 2 [(0, 0)]) 0 0).game_over = true := by decide
  obtain ⟨h1, h2⟩ := terminal_state_immutable (left_click (newGame 2 [(0, 0)]) 0 0) h 1 1
  exact ⟨h, h1, h2⟩

/-- C10: for every board state and every start cell, the `while stack` loop
of `_flood_fill` completes within `N * N + 1` iterations (the fuel
`floodFuel N`), because a cell is pushed only when it transitions from
unrevealed to revealed, so `floodLoop` returns `some` rather than running
out of fuel. -/
theorem flood_fill_terminates (N : Nat) (b : Board) (row col : Nat) :
    floodLoop N b [(row, col)] (floodFuel N) = some (flood_fill N b row col) :=
  flood_fill_eq N b row col

/-- C9: `on_start_game` constructs a game iff both inputs parse as integers
with `N > 0` and `0 ≤ M < N²`; every other input is rejected before any board
is built, and in particular `(N, M) = (5, 25)` is rejected. -/
theorem new_game_validation :
    (∀ nText mText : Option Int,
      (∃ N M : Int, on_start_game nText mText = StartResult.launch N M) ↔
      (∃ N M : Int, nText = some N ∧ mText = some M ∧ 0 < N ∧ 0 ≤ M ∧ M < N * N)) ∧
    on_start_game (some 5) (some 25) = StartResult.badM := by
  constructor
  · intro nText mText
    constructor
    · rintro ⟨N, M, h⟩
      cases nText with
      | none => exact absurd h (by cases mText <;> simp [on_start_game])
      | some n =>
        cases mText with
        | none => exact absurd h (by simp [on_start_game])
        | some m =>
          have heq : on_start_game (some n) (some m) =
              if n ≤ 0 then StartResult.badN
              else if m < 0 ∨ m ≥ n * n then StartResult.badM
              else StartResult.launch n m := rfl
          rw [heq] at h
          by_cases h1 : n ≤ 0
          · rw [if_pos h1] at h
            cases h
          rw [if_neg h1] at h
          by_cases h2 : m < 0 ∨ m ≥ n * n
          · rw [if_pos h2] at h
            cases h
          rw [if_neg h2] at h
          injection h with hN hM
          push_neg at h1 h2
          exact ⟨n, m, rfl, rfl, h1, h2.1, h2.2⟩
    · rintro ⟨N, M, rfl, rfl, hN, hM0, hMn⟩
      refine ⟨N, M, ?_⟩
      have heq : on_start_game (some N) (some M) =
          if N ≤ 0 then StartResult.badN
          else if M < 0 ∨ M ≥ N * N then StartResult.badM
          else StartResult.launch N M := rfl
      rw [heq, if_neg (by omega), if_neg (by push_neg; exact ⟨hM0, hMn⟩)]
  · decide

/-- C3: in an in-progress game, revealing an unflagged, unrevealed mine sets
`game_over = true` with outcome Lost, marks every in-range mine revealed
regardless of its flag, and leaves every non-mine cell entirely unchanged (in
particular no flagged non-mine cell is revealed). -/
theorem reveal_mine_loses (g : Game) (row col : Nat)
    (hgo : g.game_over = false) (hrow : row < g.N) (hcol : col < g.N)
    (hf : (g.board row col).is_flagged = false)
    (hr : (g.board row col).is_revealed = false)
    (hm : (g.board row col).is_mine = true) :
    (left_click g row col).game_over = true ∧
    (left_click g row col).outcome = Outcome.lost ∧
    (∀ x y, x < g.N → y < g.N → ((left_click g row col).board x y).is_mine = true →
      ((left_click g row col).board x y).is_revealed = true) ∧
    (∀ x y, (g.board x y).is_mine = false →
      (left_click g row col).board x y = g.board x y) := by
  rw [left_click_mine_eq g row col hgo hf hr hm]
  refine ⟨rfl, rfl, ?_, ?_⟩
  · intro x y hx hy hmine
    dsimp only at hmine ⊢
    obtain ⟨hm2, _, _⟩ := show_all_mines_static g.N (revealCell g.board row col) x y
    rw [hm2] at hmine
    exact show_all_mines_mine g.N _ x y hx hy hmine
  · intro x y hmine
    dsimp only
    have hxy : ¬(x = row ∧ y = col) := by
      rintro ⟨rfl, rfl⟩
      rw [hm] at hmine
      cases hmine
    have h1 : revealCell g.board row col x y = g.board x y := revealCell_other _ _ _ _ _ hxy
    have hm1 : (revealCell g.board row col x y).is_mine = false := by
      rw [h1]
      exact hmine
    rw [show_all_mines_nonmine g.N _ x y hm1, h1]

/-- Witness for C3: on a 2×2 board with mines at (0,0) and (1,1), flag (1,1),
then reveal the mine (0,0): the game is lost, the flagged mine (1,1) is
revealed too, and the non-mine cell (0,1) is untouched. -/
theorem reveal_mine_loses_witness :
    (left_click (right_click (newGame 2 [(0, 0), (1, 1)]) 1 1) 0 0).game_over = true ∧
    (left_click (right_click (newGame 2 [(0, 0), (1, 1)]) 1 1) 0 0).outcome = Outcome.lost ∧
    ((left_click (right_click (newGame 2 [(0, 0), (1, 1)]) 1 1) 0 0).board 1 1).is_revealed
      = true ∧
    (left_click (right_click (newGame 2 [(0, 0), (1, 1)]) 1 1) 0 0).board 0 1 =
      (right_click (newGame 2 [(0, 0), (1, 1)]) 1 1).board 0 1 := by
  obtain ⟨h1, h2, h3, h4⟩ := reveal_mine_loses (right_click (newGame 2 [(0, 0), (1, 1)]) 1 1)
    0 0 (by decide) (by decide) (by decide) (by decide) (by decide) (by decide)
  exact ⟨h1, h2, h3 1 1 (by decide) (by decide) (by decide), h4 0 1 (by decide)⟩

/-- C5: on every generated board, a mine cell carries the sentinel
`adjacent_mines = -1`, and a non-mine cell's `adjacent_mines` equals the
number of mines among its up-to-8 in-grid neighbors sharing an edge or
corner (out-of-bound neighbors never counted). -/
theorem adjacency_correct (N : Nat) (mines : List (Nat × Nat)) (r c : Nat)
    (hr : r < N) (hc : c < N) :
    ((generateBoard N mines r c).is_mine = true →
      (generateBoard N mines r c).adjacent_mines = -1) ∧
    ((generateBoard N mines r c).is_mine = false →
      (generateBoard N mines r c).adjacent_mines =
        (((specMooreNeighbors N r c).filter
          fun p => (generateBoard N mines p.1 p.2).is_mine = true).card : Int)) := by
  have hpb : ∀ x y, (generateBoard N mines x y).is_mine =
      ((place_mines emptyBoard mines) x y).is_mine :=
    fun x y => calculate_adjacency_is_mine N _ x y
  constructor
  · intro hm
    have hm' : ((place_mines emptyBoard mines) r c).is_mine = true := by
      rw [← hpb]
      exact hm
    show ((calculate_adjacency N (place_mines emptyBoard mines)) r c).adjacent_mines = -1
    unfold calculate_adjacency
    rw [if_pos hm']
  · intro hm
    have hm' : ((place_mines emptyBoard mines) r c).is_mine = false := by
      rw [← hpb]
      exact hm
    show ((calculate_adjacency N (place_mines emptyBoard mines)) r c).adjacent_mines = _
    unfold calculate_adjacency
    rw [if_neg (by rw [hm']; exact Bool.false_ne_true)]
    dsimp only
    rw [countAdjacent_eq_card N _ r c hm']
    congr 2
    apply Finset.filter_congr
    intro p _
    rw [hpb p.1 p.2]

/-- Witness for C5: on the 3×3 board with a single mine at (1,1), the corner
(0,0) counts exactly the mines in its Moore neighborhood and the mine cell
carries the sentinel. -/
theorem adjacency_correct_witness :
    (generateBoard 3 [(1, 1)] 0 0).adjacent_mines =
      (((specMooreNeighbors 3 0 0).filter
        fun p => (generateBoard 3 [(1, 1)] p.1 p.2).is_mine = true).card : Int) ∧
    (generateBoard 3 [(1, 1)] 1 1).adjacent_mines = -1 :=
  ⟨(adjacency_correct 3 [(1, 1)] 0 0 (by decide) (by decide)).2 (by decide),
   (adjacency_correct 3 [(1, 1)] 1 1 (by decide) (by decide)).1 (by decide)⟩

/-- C6: a board generated from a duplicate-free in-range sample of `M`
positions (what `random.sample` returns for `0 ≤ M < N²`) has exactly `M`
mine cells, and the count is preserved by every subsequent sequence of
`left_click`/`right_click` operations. -/
theorem mine_count_invariant (N M : Nat) (mines : List (Nat × Nat))
    (hN : 0 < N) (hM : M < N * N) (hnodup : mines.Nodup) (hlen : mines.length = M)
    (hrange : ∀ p ∈ mines, p.1 < N ∧ p.2 < N) :
    mineCount N (generateBoard N mines) = M ∧
    ∀ ms : List Move, mineCount N (applyMoves (newGame N mines) ms).board = M := by
  have h1 : mineCount N (generateBoard N mines) = M := by
    rw [mineCount_generate N mines hnodup hrange, hlen]
  refine ⟨h1, fun ms => ?_⟩
  exact (mineCount_congr N (generateBoard N mines) (applyMoves (newGame N mines) ms).board
    (fun x y => applyMoves_is_mine ms (newGame N mines) x y)).trans h1

/-- Witness for C6: a 2×2 board with one sampled mine keeps exactly one mine
through a reveal and a flag toggle. -/
theorem mine_count_invariant_witness :
    mineCount 2 (generateBoard 2 [(0, 0)]) = 1 ∧
    mineCount 2 (applyMoves (newGame 2 [(0, 0)]) [Move.reveal 0 1, Move.flag 1 0]).board
      = 1 := by
  obtain ⟨h1, h2⟩ := mine_count_invariant 2 1 [(0, 0)] (by decide) (by decide) (by decide)
    (by decide) (by decide)
  exact ⟨h1, h2 [Move.reveal 0 1, Move.flag 1 0]⟩

/-- C4: after revealing an unflagged, unrevealed non-mine cell of an
in-progress game, the game is over with outcome Won exactly when every
non-mine cell of the resulting board is revealed; and on the 3×3 board whose
only mine is (2,2), revealing (0,0) flood-reveals all 8 non-mine cells and
wins. -/
theorem win_condition_iff :
    (∀ (g : Game) (row col : Nat),
      g.game_over = false → row < g.N → col < g.N →
      (g.board row col).is_flagged = false → (g.board row col).is_revealed = false →
      (g.board row col).is_mine = false →
      (((left_click g row col).game_over = true ∧
          (left_click g row col).outcome = Outcome.won) ↔
        (∀ x, x < g.N → ∀ y, y < g.N →
          ((left_click g row col).board x y).is_mine = false →
          ((left_click g row col).board x y).is_revealed = true))) ∧
    ((left_click (newGame 3 [(2, 2)]) 0 0).game_over = true ∧
     (left_click (newGame 3 [(2, 2)]) 0 0).outcome = Outcome.won ∧
     ∀ x, x < 3 → ∀ y, y < 3 → ¬(x = 2 ∧ y = 2) →
       ((left_click (newGame 3 [(2, 2)]) 0 0).board x y).is_revealed = true) := by
  constructor
  · intro g row col hgo hrow hcol hf hr hm
    rw [left_click_nonmine_eq g row col hgo hf hr hm]
    by_cases hw : check_win g.N (if (g.board row col).adjacent_mines = 0
        then flood_fill g.N (revealCell g.board row col) row col
        else revealCell g.board row col) = true
    · rw [if_pos hw]
      dsimp only
      constructor
      · intro _
        exact (check_win_iff g.N _).mp hw
      · intro _
        exact ⟨rfl, rfl⟩
    · rw [if_neg hw]
      dsimp only
      constructor
      · rintro ⟨hcontra, _⟩
        rw [hgo] at hcontra
        cases hcontra
      · intro hall
        exact absurd ((check_win_iff g.N _).mpr hall) hw
  · refine ⟨by decide, by decide, by decide⟩

/-- Witness for C4: applying the iff at the 3×3 scenario with the mine at
(2,2): after revealing (0,0) every non-mine cell is revealed, so the game is
over and won. -/
theorem win_condition_iff_witness :
    (left_click (newGame 3 [(2, 2)]) 0 0).game_over = true ∧
    (left_click (newGame 3 [(2, 2)]) 0 0).outcome = Outcome.won :=
  (win_condition_iff.1 (newGame 3 [(2, 2)]) 0 0 (by decide) (by decide) (by decide)
    (by decide) (by decide) (by decide)).mpr (by decide)

/-- Counterexample to C1 as stated: flag the mine at (0,0) of a 2×2 board,
then reveal the mine at (0,1).  `_show_all_mines` marks the flagged mine
revealed without clearing the flag, so the reachable lost state holds a cell
with `is_flagged = true` and `is_revealed = true`. -/
theorem flag_reveal_exclusion_counterexample :
    ((left_click (right_click (newGame 2 [(0, 0), (0, 1)]) 0 0) 0 1).board 0 0).is_flagged
      = true ∧
    ((left_click (right_click (newGame 2 [(0, 0), (0, 1)]) 0 0) 0 1).board 0 0).is_revealed
      = true := by
  decide

/-- C1(amended): in every reachable state, `reveal` and `toggle_flag` never
create a flagged-and-revealed cell themselves — any cell that is both flagged
and revealed is a mine disclosed by the reveal-all-mines side effect of a
loss, so it can only exist with `game_over = true` and outcome Lost. -/
theorem flag_reveal_exclusion_amended (g : Game) (hg : Reachable g) (x y : Nat)
    (hf : (g.board x y).is_flagged = true) (hr : (g.board x y).is_revealed = true) :
    (g.board x y).is_mine = true ∧ g.game_over = true ∧ g.outcome = Outcome.lost :=
  reachable_flag_reveal g hg x y hf hr

/-- Witness for C1(amended) at the lost game of the counterexample scenario:
the flagged revealed cell (0,0) is indeed a mine in a lost terminal state. -/
theorem flag_reveal_exclusion_amended_witness :
    ((left_click (right_click (newGame 2 [(0, 0), (0, 1)]) 0 0) 0 1).board 0 0).is_mine
      = true ∧
    (left_click (right_click (newGame 2 [(0, 0), (0, 1)]) 0 0) 0 1).game_over = true ∧
    (left_click (right_click (newGame 2 [(0, 0), (0, 1)]) 0 0) 0 1).outcome
      = Outcome.lost :=
  flag_reveal_exclusion_amended _
    (Reachable.reveal 0 1
      (Reachable.flag 0 0 (Reachable.init 2 [(0, 0), (0, 1)]) (by decide) (by decide))
      (by decide) (by decide))
    0 0 (by decide) (by decide)

/-- Counterexample to C2 as stated: on a mine-free 3×3 board with flags at
(0,1), (1,1) and (2,1), revealing (0,0) leaves (0,1) unrevealed even though
(0,1) belongs to the maximal zero-adjacency region of (0,0) — flags block the
flood fill, which the claim's region description ignores. -/
theorem flood_fill_completeness_counterexample :
    ¬ ClaimC2At (right_click (right_click (right_click (newGame 3 []) 0 1) 1 1) 2 1) 0 0 := by
  intro h
  have hconc := h (by decide) (by decide) (by decide) (by decide) (by decide) (by decide)
    (by decide)
  have hregion : SpecZeroRegion
      (right_click (right_click (right_click (newGame 3 []) 0 1) 1 1) 2 1).N
      (right_click (right_click (right_click (newGame 3 []) 0 1) 1 1) 2 1).board
      0 0 0 1 :=
    SpecZeroRegion.step SpecZeroRegion.refl (by decide) (by decide)
  have h01 := (hconc.1 0 1).mpr (Or.inr (Or.inl hregion))
  exact absurd h01 (by decide)

/-- C2(amended): revealing an unflagged, unrevealed, non-mine cell with zero
adjacency reveals exactly the previously revealed cells plus the
`FloodReach` closure of the start — the region grown through zero-adjacency
cells but stopping at flagged, already-revealed and mine cells — and changes
the revealed state of no mine and no flagged cell. -/
theorem flood_fill_characterization (g : Game) (row col : Nat)
    (hgo : g.game_over = false) (hrow : row < g.N) (hcol : col < g.N)
    (hf : (g.board row col).is_flagged = false)
    (hr : (g.board row col).is_revealed = false)
    (hm : (g.board row col).is_mine = false)
    (ha : (g.board row col).adjacent_mines = 0) :
    (∀ x y, ((left_click g row col).board x y).is_revealed = true ↔
      ((g.board x y).is_revealed = true ∨
        FloodReach g.N (revealCell g.board row col) row col x y)) ∧
    (∀ x y, (g.board x y).is_mine = true →
      ((left_click g row col).board x y).is_revealed = (g.board x y).is_revealed) ∧
    (∀ x y, (g.board x y).is_flagged = true →
      ((left_click g row col).board x y).is_revealed = (g.board x y).is_revealed) := by
  have hb := left_click_zero_board g row col hgo hf hr hm ha
  have hrev1 : (revealCell g.board row col row col).is_revealed = true :=
    revealCell_self g.board row col
  have hadj1 : (revealCell g.board row col row col).adjacent_mines = 0 := by
    obtain ⟨_, _, ha1⟩ := revealCell_static g.board row col row col
    rw [ha1]
    exact ha
  have hspec := flood_fill_spec g.N (revealCell g.board row col) row col hrev1 hadj1
  have hchar : ∀ x y, ((left_click g row col).board x y).is_revealed = true ↔
      ((g.board x y).is_revealed = true ∨
        FloodReach g.N (revealCell g.board row col) row col x y) := by
    intro x y
    rw [hb, hspec x y]
    constructor
    · rintro (h1 | h2)
      · rcases revealCell_sound _ _ _ _ _ h1 with h | ⟨rfl, rfl⟩
        · exact Or.inl h
        · exact Or.inr FloodReach.start
      · exact Or.inr h2
    · rintro (h1 | h2)
      · exact Or.inl (revealCell_mono _ _ _ _ _ h1)
      · exact Or.inr h2
  have hstatic1 := revealCell_static g.board row col
  refine ⟨hchar, ?_, ?_⟩
  · intro x y hmine
    by_cases hgrev : (g.board x y).is_revealed = true
    · rw [hgrev]
      exact (hchar x y).mpr (Or.inl hgrev)
    · have hgrev' : (g.board x y).is_revealed = false := by
        cases hb' : (g.board x y).is_revealed
        · rfl
        · exact absurd hb' hgrev
      rw [hgrev']
      cases hrev' : ((left_click g row col).board x y).is_revealed
      · rfl
      · exfalso
        rcases (hchar x y).mp hrev' with h1 | h1
        · exact hgrev h1
        · rcases floodReach_cases _ _ _ _ _ _ h1 with ⟨rfl, rfl⟩ | ⟨_, _, hmine1⟩
          · rw [hm] at hmine
            cases hmine
          · obtain ⟨hm1, _, _⟩ := hstatic1 x y
            rw [hm1, hmine] at hmine1
            cases hmine1
  · intro x y hflag
    by_cases hgrev : (g.board x y).is_revealed = true
    · rw [hgrev]
      exact (hchar x y).mpr (Or.inl hgrev)
    · have hgrev' : (g.board x y).is_revealed = false := by
        cases hb' : (g.board x y).is_revealed
        · rfl
        · exact absurd hb' hgrev
      rw [hgrev']
      cases hrev' : ((left_click g row col).board x y).is_revealed
      · rfl
      · exfalso
        rcases (hchar x y).mp hrev' with h1 | h1
        · exact hgrev h1
        · rcases floodReach_cases _ _ _ _ _ _ h1 with ⟨rfl, rfl⟩ | ⟨_, hflag1, _⟩
          · rw [hf] at hflag
            cases hflag
          · obtain ⟨_, hf1, _⟩ := hstatic1 x y
            rw [hf1, hflag] at hflag1
            cases hflag1

/-- Witness for C2(amended) on the 3×3 board with its only mine at (2,2),
revealing (0,0): cell (1,1) is revealed exactly because it is flood-reachable,
and the revealed state of the mine (2,2) is untouched. -/
theorem flood_fill_characterization_witness :
    (((left_click (newGame 3 [(2, 2)]) 0 0).board 1 1).is_revealed = true ↔
      (((newGame 3 [(2, 2)]).board 1 1).is_revealed = true ∨
        FloodReach (newGame 3 [(2, 2)]).N
          (revealCell (newGame 3 [(2, 2)]).board 0 0) 0 0 1 1)) ∧
    ((left_click (newGame 3 [(2, 2)]) 0 0).board 2 2).is_revealed =
      ((newGame 3 [(2, 2)]).board 2 2).is_revealed := by
  obtain ⟨h1, h2, _⟩ := flood_fill_characterization (newGame 3 [(2, 2)]) 0 0 (by decide)
    (by decide) (by decide) (by decide) (by decide) (by decide) (by decide)
  exact ⟨h1 1 1, h2 2 2 (by decide)⟩

/-- Counterexample to C8 as stated: with the game in progress, calling
`left_click(-1, -1)` on a 2×2 board raises no error — Python's negative list
indexing wraps to the cell (1, 1), which is silently revealed. -/
theorem out_of_range_counterexample :
    (left_click_py (newGame 2 [(0, 0)]) (-1) (-1)).map
        (fun g => (g.board 1 1).is_revealed) = some true ∧
    ((newGame 2 [(0, 0)]).board 1 1).is_revealed = false := by
  decide

/-- C8(amended): while the game is in progress, a coordinate outside
`[-N, N)` makes `left_click`/`right_click` raise `IndexError` (`none`) before
any cell is mutated; coordinates in `[-N, -1]`, however, are accepted by
Python list indexing and silently operate on the wrapped cell. -/
theorem out_of_range_raises (g : Game) (row col : Int)
    (hgo : g.game_over = false)
    (h : row < -(g.N : Int) ∨ (g.N : Int) ≤ row ∨ col < -(g.N : Int) ∨ (g.N : Int) ≤ col) :
    left_click_py g row col = none ∧ right_click_py g row col = none := by
  have hpy : pyIndex g.N row = none ∨ pyIndex g.N col = none := by
    rcases h with h | h | h | h
    · exact Or.inl (pyIndex_none g.N row (Or.inl h))
    · exact Or.inl (pyIndex_none g.N row (Or.inr h))
    · exact Or.inr (pyIndex_none g.N col (Or.inl h))
    · exact Or.inr (pyIndex_none g.N col (Or.inr h))
  constructor
  · unfold left_click_py
    rw [if_neg (by rw [hgo]; exact Bool.false_ne_true)]
    rcases hpy with h' | h'
    · rw [h']
    · rw [h']
      cases pyIndex g.N row <;> rfl
  · unfold right_click_py
    rw [if_neg (by rw [hgo]; exact Bool.false_ne_true)]
    rcases hpy with h' | h'
    · rw [h']
    · rw [h']
      cases pyIndex g.N row <;> rfl

/-- Witness for C8(amended): row index 5 on a fresh 2×2 game raises on both
entry points. -/
theorem out_of_range_raises_witness :
    left_click_py (newGame 2 [(0, 0)]) 5 0 = none ∧
    right_click_py (newGame 2 [(0, 0)]) 5 0 = none :=
  out_of_range_raises (newGame 2 [(0, 0)]) 5 0 (by decide) (by decide)

end Minesweeper
